import Mathlib

/-!
Shallow embedding of the ethertracer analyzer (files `helpers.py`,
`tagger.py`, `analyzer.py`, `__init__.py` under `src/ethertracer`).

Machine code is a list of byte values (`List Nat`); the boolean numpy
masks are `List Bool`.  Python functions that can raise an exception on
the inputs the claims quantify over (an `IndexError` from indexing an
empty list or an empty numpy axis, a crash inside the entrance-search
loop) are embedded as `Option`-valued functions, `none` standing for the
raised exception; the possibly non-terminating entrance-search `while`
loop is embedded with explicit fuel, `none` also standing for running
out of fuel.  The floating point `hit_ratio` of the entrance search is
embedded as the exact pair (hits, total), `none` standing for the IEEE
`nan` produced by `0.0 / 0`, which compares false against every
threshold; the threshold itself is the rational
`stop_threshold_num / stop_threshold_den` and the comparison
`hit_ratio < stop_threshold` is the exact cross-multiplied one (every
comparison actually reached in the proofs below is between exactly
representable values, so the float and the rational comparison agree).
-/

/-- Modelled from the spec: the opcode table (`opcodes.py`) is an external
static lookup that is not under `src/`.  Byte value of `STOP`, fixed by the
spec's examples (`"5b00"` is `JUMPDEST`, `STOP`). -/
def STOP_BYTE : Nat := 0

/-- Modelled from the spec: byte value of `JUMP` (spec example
`"5b 61 ff ff 56 00"` has `JUMP` = 0x56). -/
def JUMP_BYTE : Nat := 86

/-- Modelled from the spec: byte value of `JUMPDEST` (0x5b). -/
def JUMPDEST_BYTE : Nat := 91

/-- Modelled from the spec: byte value of `PUSH1` (0x60). -/
def PUSH1_BYTE : Nat := 96

/-- Modelled from the spec: byte value of `PUSH32`; the spec fixes the
contiguous range `[PUSH1_BYTE, PUSH32_BYTE]` with `pushLen(b) = b - PUSH1_BYTE + 1`,
hence 0x7f. -/
def PUSH32_BYTE : Nat := 127

/-- Modelled from the spec: byte value of `RETURN` per the EVM instruction
set the spec refers to (0xf3). -/
def RETURN_BYTE : Nat := 243

/-- Modelled from the spec: byte value of `SELFDESTRUCT` per the EVM
instruction set the spec refers to (0xff). -/
def SELFDESTRUCT_BYTE : Nat := 255

/-- Modelled from the spec: membership in the opcode table (`BYTECODES`),
total over byte values, true exactly on the defined legacy EVM opcodes.
The claims below never depend on the exact extent of this set. -/
def isValidOpcode (b : Nat) : Bool :=
  b ≤ 11 || (16 ≤ b && b ≤ 29) || b == 32 || (48 ≤ b && b ≤ 69) ||
  (80 ≤ b && b ≤ 91) || (96 ≤ b && b ≤ 164) || (240 ≤ b && b ≤ 245) ||
  b == 250 || b == 253 || b == 255

/-- `tagger.tag_mnemonic`: mask of the positions holding the byte of the
given mnemonic (the mnemonic→byte lookup of the opcode table is applied by
the caller, so the byte value is the parameter here). -/
def tag_mnemonic (machine_code : List Nat) (code : Nat) : List Bool :=
  machine_code.map (fun b => b == code)

/-- `tagger.tag_invalid_mnemonics`: mask of the positions whose byte is not
in the opcode table. -/
def tag_invalid_mnemonics (machine_code : List Nat) : List Bool :=
  machine_code.map (fun b => !(isValidOpcode b))

/-- Scanner of `tagger.tag_push_data`: scan left to right; at a `PUSHk`
byte mark the next `k` positions (clipped at the end of the stream) as
push data and resume scanning after the operand block. -/
def tag_push_data_aux : List Nat → Nat → List Bool
  | [], _ => []
  | _ :: rest, skip + 1 => true :: tag_push_data_aux rest skip
  | b :: rest, 0 =>
    if PUSH1_BYTE ≤ b ∧ b ≤ PUSH32_BYTE then
      false :: tag_push_data_aux rest (b - PUSH1_BYTE + 1)
    else
      false :: tag_push_data_aux rest 0

/-- `tagger.tag_push_data`: the `while` loop rendered with an operand
countdown: a positive countdown means the current byte is inside the
operand block of the last `PUSHk` (marked true and skipped by the
scanner); at countdown zero a `PUSHk` byte starts a countdown of `k`.
Truncated operand blocks are clipped by the end of the stream. -/
def tag_push_data (machine_code : List Nat) : List Bool :=
  tag_push_data_aux machine_code 0

/-- Group-number assignment of `helpers.get_compound_subsets`: the Python
loop appends the current `number_of_subsets` for every index and increments
it between two indices that differ by more than one; the second component
is the final value of `number_of_subsets`. -/
def buildGroups : List Nat → Nat → List Nat × Nat
  | [], n => ([], n)
  | [_], n => ([n], n)
  | a :: b :: rest, n =>
    (n :: (buildGroups (b :: rest) (if b - a > 1 then n + 1 else n)).1,
      (buildGroups (b :: rest) (if b - a > 1 then n + 1 else n)).2)

/-- `helpers.get_compound_subsets`: collect the indices where the list
equals the indicator, assign group numbers, and emit one bucket for every
group number in `0 .. number_of_subsets` (note that an all-false mask
yields the single empty bucket `[[]]`, because the final loop still runs
for `i = 0`). -/
def get_compound_subsets (l : List Bool) (indicator : Bool := true) :
    List (List Nat) :=
  let idx := (List.range l.length).filter (fun i => l.getD i false == indicator)
  let bg := buildGroups idx 0
  (List.range (bg.2 + 1)).map
    (fun g => ((idx.zip bg.1).filter (fun pr => pr.2 == g)).map Prod.fst)

/-- Fueled form of the binary-digit expansion (`n` itself is always enough
fuel, since the argument at least halves every step). -/
def natBinAux : Nat → Nat → List Bool
  | _, 0 => []
  | 0, _ + 1 => []
  | fuel + 1, n + 1 => natBinAux fuel ((n + 1) / 2) ++ [(n + 1) % 2 == 1]

/-- Minimal binary digits of a natural number, most significant bit first
(the digits of Python's `f-string` binary format before zero padding). -/
def natBinDigits (n : Nat) : List Bool := natBinAux n n

/-- Python `f'{b:08b}'`: the binary digits of `b` (with `'0'` for zero),
left padded with zeros to at least eight characters. -/
def pyFormatB08 (b : Nat) : List Bool :=
  let d := if b = 0 then [false] else natBinDigits b
  List.replicate (8 - d.length) false ++ d

/-- Python `int(s, 2)` on a string of binary digits. -/
def parseBin (bits : List Bool) : Nat :=
  bits.foldl (fun acc bit => 2 * acc + (if bit then 1 else 0)) 0

/-- `helpers.compound_bytes_to_integer`: format every byte as an eight
character binary string, concatenate, and parse the result in base two. -/
def compound_bytes_to_integer (bytes : List Nat) : Nat :=
  parseBin ((bytes.map pyFormatB08).flatten)

/-- Walk of `helpers.segment_list` over the paired flag lists with the
running counter. -/
def segmentAux : List (Bool × Bool) → Nat → List Nat
  | [], _ => []
  | (true, _) :: rest, c => (c + 1) :: segmentAux rest (c + 1)
  | (false, true) :: rest, c => c :: segmentAux rest (c + 1)
  | (false, false) :: rest, c => c :: segmentAux rest c

/-- `helpers.segment_list`: emit one segment id per position; a start flag
pre-increments the counter, an end flag emits then increments, start wins
when both are set. -/
def segment_list (flags_segment_start flags_segment_end : List Bool) :
    List Nat :=
  segmentAux (flags_segment_start.zip flags_segment_end) 0

/-- `analyzer.segment_code` with `masking = None` (the only way the
orchestrator calls it). -/
def segment_code (machine_code : List Nat)
    (start_flags_mask end_flags_mask : List Bool) : List Nat :=
  segment_list start_flags_mask end_flags_mask

/-- `analyzer._tag_valid_segments`: collect the segment numbers that carry
a hit (`validation_mask[i] == invalid_indicator`) and emit `false` on every
position of such a segment, `true` elsewhere. -/
def tag_valid_segments (segments : List Nat) (validation_mask : List Bool)
    (invalid_indicator : Bool) : List Bool :=
  let indices := (List.range segments.length).filter
    (fun i => validation_mask.getD i false == invalid_indicator)
  let invalid_segment_numbers := indices.map (fun i => segments.getD i 0)
  segments.map (fun s => !(invalid_segment_numbers.contains s))

/-- `analyzer.validate_segment_mnemonics` with `masking = None`. -/
def validate_segment_mnemonics (machine_code : List Nat)
    (segments : List Nat) (invalid_mnemonics_mask : List Bool) : List Bool :=
  tag_valid_segments segments invalid_mnemonics_mask true

/-- Loop body of `analyzer._get_push_data` over the compound subsets: an
empty run raises `IndexError` on `set[0]` (embedded as `none`); a run whose
last position is not the final byte contributes the fold of its slice. -/
def push_fold (machine_code : List Nat) : List (List Nat) → Option (List Nat)
  | [] => some []
  | [] :: _ => none
  | (a :: r2) :: rs =>
    (push_fold machine_code rs).map (fun tail =>
      if (a :: r2).getLastD 0 + 1 < machine_code.length then
        compound_bytes_to_integer
          ((machine_code.drop a).take ((a :: r2).getLastD 0 + 1 - a)) :: tail
      else tail)

/-- `analyzer._get_push_data`. -/
def get_push_data (machine_code : List Nat) (push_data_mask : List Bool) :
    Option (List Nat) :=
  push_fold machine_code (get_compound_subsets push_data_mask)

/-- Loop body of `analyzer._get_pushjump_data` over the compound subsets:
an empty run raises (embedded as `none`); a run followed inside the stream
by a `JUMP` contributes the pair (jump address, folded push value). -/
def pushjump_fold (machine_code : List Nat) (jumps_mask : List Bool) :
    List (List Nat) → Option (List (Nat × Nat))
  | [] => some []
  | [] :: _ => none
  | (a :: r2) :: rs =>
    (pushjump_fold machine_code jumps_mask rs).map (fun tail =>
      if (a :: r2).getLastD 0 + 1 < machine_code.length ∧
          jumps_mask.getD ((a :: r2).getLastD 0 + 1) false then
        ((a :: r2).getLastD 0 + 1,
          compound_bytes_to_integer
            ((machine_code.drop a).take ((a :: r2).getLastD 0 + 1 - a))) :: tail
      else tail)

/-- `analyzer._get_pushjump_data`. -/
def get_pushjump_data (machine_code : List Nat)
    (push_data_mask jumps_mask : List Bool) : Option (List (Nat × Nat)) :=
  pushjump_fold machine_code jumps_mask (get_compound_subsets push_data_mask)

/-- `analyzer.validate_segment_jumps` with `masking = None`.  When the
pushjump list is empty, `np.array(pushjump_data)` is one dimensional and
the slice `pushjumps[:, 1]` raises `IndexError` (embedded as `none`). -/
def validate_segment_jumps (machine_code : List Nat) (segments : List Nat)
    (push_data_mask jumps_mask : List Bool) : Option (List Bool) :=
  (get_pushjump_data machine_code push_data_mask jumps_mask).bind
    (fun pushjumps =>
      if pushjumps = [] then none
      else
        let invalid_jump_addresses :=
          (pushjumps.filter (fun pr => pr.2 > machine_code.length)).map Prod.fst
        let invalid_jumps_mask := (List.range machine_code.length).map
          (fun i => invalid_jump_addresses.contains i)
        some (tag_valid_segments segments invalid_jumps_mask true))

/-- `np.argwhere(mask == True).flatten()`. -/
def argwhereTrue (mask : List Bool) : List Nat :=
  (List.range mask.length).filter (fun i => mask.getD i false)

/-- Loop state of `analyzer.search_contract_starts`: the remaining
jumpdest indices, the result mask, the accumulated hits, and the float
`hit_ratio` (`none` = `nan`). -/
structure SearchState where
  jumpdest_indices : List Int
  starting_points : List Bool
  total_hits : Nat
  hit_ratio : Option (Nat × Nat)
deriving DecidableEq, Repr

/-- First index attaining the maximum of the list (`np.argmax` over a
dense vector of non-negative scores). -/
def argmaxIdx (l : List Nat) : Nat :=
  l.findIdx (fun x => x == l.foldl max 0)

/-- `len(set(push_data).intersection(set(jumpdest_indices - bias)))`:
the number of distinct push values hit by the shifted jumpdest set. -/
def searchScore (push_data : List Int) (jd : List Int) (bias : Nat) : Nat :=
  ((push_data.dedup).filter
    (fun p => (jd.map (fun j => j - (bias : Int))).contains p)).length

/-- One iteration of the `while` loop of
`analyzer.search_contract_starts`; `none` is the `ValueError` raised by
`argmax` on the empty score vector of an empty bytecode.  Dividing the
float hits by `total_jumpdest_number = 0` yields `nan` (`none`). -/
def searchStep (machine_code_len : Nat) (push_data : List Int)
    (total_jumpdest_number : Nat) (st : SearchState) : Option SearchState :=
  if machine_code_len = 0 then none
  else
    let bias_hits := (List.range machine_code_len).map
      (searchScore push_data st.jumpdest_indices)
    let best_bias := argmaxIdx bias_hits
    let hits_best_bias := bias_hits.foldl max 0
    let total_hits := st.total_hits + hits_best_bias
    some
      { jumpdest_indices := st.jumpdest_indices.filter
          (fun j => !(push_data.contains (j - (best_bias : Int)))),
        starting_points := st.starting_points.set best_bias true,
        total_hits := total_hits,
        hit_ratio :=
          if total_jumpdest_number = 0 then none
          else some (total_hits, total_jumpdest_number) }

/-- Loop condition `hit_ratio < stop_threshold and len(jumpdest_indices) >= 0`;
a `nan` ratio compares false; `hits / total < num / den` is decided by the
exact cross multiplication `hits * den < num * total`. -/
def searchGuard (stop_threshold_num stop_threshold_den : Nat)
    (st : SearchState) : Bool :=
  (match st.hit_ratio with
    | some r => decide (r.1 * stop_threshold_den < stop_threshold_num * r.2)
    | none => false) && decide (0 ≤ st.jumpdest_indices.length)

/-- Fueled unfolding of the `while` loop of
`analyzer.search_contract_starts`; `none` means the loop has not finished
within the given fuel (or an iteration raised). -/
def searchLoop (machine_code_len : Nat) (push_data : List Int) (total : Nat)
    (stop_threshold_num stop_threshold_den : Nat) :
    Nat → SearchState → Option (List Bool)
  | 0, _ => none
  | fuel + 1, st =>
    if searchGuard stop_threshold_num stop_threshold_den st then
      (searchStep machine_code_len push_data total st).bind
        (searchLoop machine_code_len push_data total stop_threshold_num
          stop_threshold_den fuel)
    else
      some st.starting_points

/-- `analyzer.search_contract_starts` with `masking = None`. -/
def search_contract_starts (machine_code : List Nat)
    (push_data_mask jumpdests_mask : List Bool)
    (stop_threshold_num stop_threshold_den : Nat) (fuel : Nat) :
    Option (List Bool) :=
  (get_push_data machine_code push_data_mask).bind (fun push_data =>
    searchLoop machine_code.length (push_data.map (fun v => (v : Int)))
      ((argwhereTrue jumpdests_mask).length) stop_threshold_num
      stop_threshold_den fuel
      { jumpdest_indices := (argwhereTrue jumpdests_mask).map
          (fun i => (i : Int)),
        starting_points := List.replicate machine_code.length false,
        total_hits := 0,
        hit_ratio := some (0, 1) })

/-- Loop of `analyzer._tag_valid_jumpdests_to_starting_points` over the
starting points: mark the jumpdests hit from the current bias and remove
them from the remaining index set. -/
def tagValidJumpdestsAux (push_data : List Int) :
    List Nat → List Int → List Bool → List Bool
  | [], _, mask => mask
  | bias :: rest, jd, mask =>
    tagValidJumpdestsAux push_data rest
      (jd.filter (fun j => !(push_data.contains (j - (bias : Int)))))
      ((List.range mask.length).map (fun i =>
        mask.getD i false ||
          (jd.filter (fun j => push_data.contains (j - (bias : Int)))).contains
            ((i : Nat) : Int)))

/-- `analyzer._tag_valid_jumpdests_to_starting_points`. -/
def tag_valid_jumpdests_to_starting_points (machine_code : List Nat)
    (starting_points_mask push_data_mask jumpdests_mask : List Bool) :
    Option (List Bool) :=
  (get_push_data machine_code push_data_mask).map (fun push_data =>
    tagValidJumpdestsAux (push_data.map (fun v => (v : Int)))
      (argwhereTrue starting_points_mask)
      ((argwhereTrue jumpdests_mask).map (fun i => (i : Int)))
      (List.replicate machine_code.length false))

/-- `analyzer.validate_segment_jumpdests` with `masking = None`. -/
def validate_segment_jumpdests (machine_code : List Nat)
    (segments : List Nat)
    (push_data_mask jumpdests_mask contract_entrance_mask : List Bool) :
    Option (List Bool) :=
  (tag_valid_jumpdests_to_starting_points machine_code
      contract_entrance_mask push_data_mask jumpdests_mask).map
    (fun valid_jumpdests_mask =>
      tag_valid_segments segments
        (List.zipWith xor jumpdests_mask valid_jumpdests_mask) true)

/-- `np.logical_and` on masks. -/
def maskAnd (a b : List Bool) : List Bool := List.zipWith and a b

/-- `np.logical_or` on masks. -/
def maskOr (a b : List Bool) : List Bool := List.zipWith or a b

/-- `np.invert` on a boolean mask. -/
def maskNot (a : List Bool) : List Bool := a.map (fun b => !b)

/-- The orchestrator's `push_data_mask`. -/
def push_data_mask_of (mc : List Nat) : List Bool := tag_push_data mc

/-- The orchestrator's `invalid_mnemonic_mask` after intersection with the
complement of the push-data mask. -/
def invalid_mnemonic_mask_of (mc : List Nat) : List Bool :=
  maskAnd (tag_invalid_mnemonics mc) (maskNot (tag_push_data mc))

/-- The orchestrator's `jumpdest_mask` after intersection with the
complement of the push-data mask. -/
def jumpdest_mask_of (mc : List Nat) : List Bool :=
  maskAnd (tag_mnemonic mc JUMPDEST_BYTE) (maskNot (tag_push_data mc))

/-- The orchestrator's `jump_mask` after intersection with the complement
of the push-data mask. -/
def jump_mask_of (mc : List Nat) : List Bool :=
  maskAnd (tag_mnemonic mc JUMP_BYTE) (maskNot (tag_push_data mc))

/-- The orchestrator's `stop_mask` after intersection with the complement
of the push-data mask. -/
def stop_mask_of (mc : List Nat) : List Bool :=
  maskAnd (tag_mnemonic mc STOP_BYTE) (maskNot (tag_push_data mc))

/-- The orchestrator's `return_mask` after intersection with the
complement of the push-data mask. -/
def return_mask_of (mc : List Nat) : List Bool :=
  maskAnd (tag_mnemonic mc RETURN_BYTE) (maskNot (tag_push_data mc))

/-- The orchestrator's `selfdestruct_mask` after intersection with the
complement of the push-data mask. -/
def selfdestruct_mask_of (mc : List Nat) : List Bool :=
  maskAnd (tag_mnemonic mc SELFDESTRUCT_BYTE) (maskNot (tag_push_data mc))

/-- The orchestrator's `end_flag_mask`, exactly as the code computes it:
`np.logical_and(jump_mask, np.logical_and(stop_mask,
np.logical_and(return_mask, selfdestruct_mask)))`. -/
def end_flag_mask_of (mc : List Nat) : List Bool :=
  maskAnd (jump_mask_of mc)
    (maskAnd (stop_mask_of mc)
      (maskAnd (return_mask_of mc) (selfdestruct_mask_of mc)))

/-- Modelled from the spec: `endMask ← jumpMask ∨ stopMask ∨ returnMask ∨
selfdestructMask`, the pointwise logical OR of the four terminator masks
that the specification prescribes for the segmenter. -/
def end_flag_mask_spec_or (mc : List Nat) : List Bool :=
  maskOr (jump_mask_of mc)
    (maskOr (stop_mask_of mc)
      (maskOr (return_mask_of mc) (selfdestruct_mask_of mc)))

/-- The segment id vector the orchestrator computes
(`analyzer.segment_code(machine_code, start_flag_mask, end_flag_mask)`). -/
def analyze_segments (mc : List Nat) : List Nat :=
  segment_code mc (jumpdest_mask_of mc) (end_flag_mask_of mc)

/-- Indices of the true positions of a mask, counted from offset `i`
(recursive form of `argwhereTrue`, used in proofs). -/
def trueIdx : Nat → List Bool → List Nat
  | _, [] => []
  | i, true :: rest => i :: trueIdx (i + 1) rest
  | i, false :: rest => trueIdx (i + 1) rest

/-- Group an increasing index list into its maximal blocks of consecutive
numbers (proof-side normal form of the run decomposition). -/
def chunkConsec : List Nat → List (List Nat)
  | [] => []
  | [a] => [[a]]
  | a :: b :: rest =>
    if b - a > 1 then [a] :: chunkConsec (b :: rest)
    else
      match chunkConsec (b :: rest) with
      | [] => [[a]]
      | c :: cs => (a :: c) :: cs

/-- Attach position `i` (known true) in front of the runs of the rest of
the mask: when the next position is also true the first run of the rest
starts right at `i + 1` and `i` joins it, otherwise `i` is a run of its
own. -/
def specRunsCons (i : Nat) (rest : List Bool) (rs : List (List Nat)) :
    List (List Nat) :=
  match rest, rs with
  | true :: _, r :: rs2 => (i :: r) :: rs2
  | _, rs2 => [i] :: rs2

/-- Modelled from the spec: `CompoundSubsets(mask)` is the ordered list of
runs, each run a maximal contiguous range of positions where the mask is
true, given as its increasing list of indices; `i` is the offset of the
first position of the remaining mask. -/
def specRunsFrom : Nat → List Bool → List (List Nat)
  | _, [] => []
  | i, false :: rest => specRunsFrom (i + 1) rest
  | i, true :: rest => specRunsCons i rest (specRunsFrom (i + 1) rest)

/-- `ethertracer.analyze` (report writing aside): compute the masks,
segment, run the three validators, and AND their outputs.  `none` stands
for a raised exception (or exhausted search fuel). -/
def analyze (mc : List Nat) (stop_threshold_num stop_threshold_den : Nat)
    (fuel : Nat) : Option (List Bool) :=
  let segments := analyze_segments mc
  let mnemonic_check :=
    validate_segment_mnemonics mc segments (invalid_mnemonic_mask_of mc)
  (validate_segment_jumps mc segments (push_data_mask_of mc)
      (jump_mask_of mc)).bind (fun pushjump_check =>
    (search_contract_starts mc (push_data_mask_of mc) (jumpdest_mask_of mc)
        stop_threshold_num stop_threshold_den fuel).bind
      (fun contract_starts_mask =>
      (validate_segment_jumpdests mc segments (push_data_mask_of mc)
          (jumpdest_mask_of mc) contract_starts_mask).map
        (fun jumpdest_check =>
          maskAnd mnemonic_check (maskAnd pushjump_check jumpdest_check))))

/-! ### Basic length and pointwise lemmas -/

lemma length_tag_push_data_aux :
    ∀ (l : List Nat) (skip : Nat), (tag_push_data_aux l skip).length = l.length := by
  intro l
  induction l with
  | nil => intro skip; rfl
  | cons b rest ih =>
    intro skip
    cases skip with
    | zero =>
      by_cases hb : PUSH1_BYTE ≤ b ∧ b ≤ PUSH32_BYTE
      · simp [tag_push_data_aux, if_pos hb, ih]
      · simp [tag_push_data_aux, if_neg hb, ih]
    | succ k => simp [tag_push_data_aux, ih]

lemma length_tag_push_data (l : List Nat) :
    (tag_push_data l).length = l.length := by
  simp [tag_push_data, length_tag_push_data_aux]

lemma length_maskNot (a : List Bool) : (maskNot a).length = a.length := by
  simp [maskNot]

lemma length_maskAnd (a b : List Bool) :
    (maskAnd a b).length = min a.length b.length := by
  simp [maskAnd]

lemma length_maskOr (a b : List Bool) :
    (maskOr a b).length = min a.length b.length := by
  simp [maskOr]

lemma length_tag_mnemonic (mc : List Nat) (c : Nat) :
    (tag_mnemonic mc c).length = mc.length := by
  simp [tag_mnemonic]

lemma length_masked_mnemonic (mc : List Nat) (c : Nat) :
    (maskAnd (tag_mnemonic mc c) (maskNot (tag_push_data mc))).length
      = mc.length := by
  simp [length_maskAnd, length_tag_mnemonic, length_maskNot,
    length_tag_push_data]

lemma length_jump_mask_of (mc : List Nat) :
    (jump_mask_of mc).length = mc.length := length_masked_mnemonic mc _

lemma length_stop_mask_of (mc : List Nat) :
    (stop_mask_of mc).length = mc.length := length_masked_mnemonic mc _

lemma length_return_mask_of (mc : List Nat) :
    (return_mask_of mc).length = mc.length := length_masked_mnemonic mc _

lemma length_selfdestruct_mask_of (mc : List Nat) :
    (selfdestruct_mask_of mc).length = mc.length := length_masked_mnemonic mc _

lemma length_jumpdest_mask_of (mc : List Nat) :
    (jumpdest_mask_of mc).length = mc.length := length_masked_mnemonic mc _

lemma length_end_flag_mask_of (mc : List Nat) :
    (end_flag_mask_of mc).length = mc.length := by
  simp [end_flag_mask_of, length_maskAnd, length_jump_mask_of,
    length_stop_mask_of, length_return_mask_of, length_selfdestruct_mask_of]

lemma getD_map_lt {α β : Type} (l : List α) (f : α → β) (i : Nat)
    (h : i < l.length) (d : β) (d2 : α) :
    (l.map f).getD i d = f (l.getD i d2) := by
  have h2 : i < (l.map f).length := by simpa using h
  rw [List.getD_eq_getElem _ _ h2, List.getD_eq_getElem _ _ h,
    List.getElem_map]

lemma getD_zipWith_and (a b : List Bool) (i : Nat) (ha : i < a.length)
    (hb : i < b.length) :
    (List.zipWith and a b).getD i false
      = (a.getD i false && b.getD i false) := by
  have h : i < (List.zipWith and a b).length := by
    rw [List.length_zipWith]
    omega
  rw [List.getD_eq_getElem _ _ h, List.getD_eq_getElem _ _ ha,
    List.getD_eq_getElem _ _ hb, List.getElem_zipWith]

lemma getD_masked_mnemonic (mc : List Nat) (c : Nat) (i : Nat)
    (h : i < mc.length) :
    (maskAnd (tag_mnemonic mc c) (maskNot (tag_push_data mc))).getD i false
      = ((mc.getD i 0 == c) && !((tag_push_data mc).getD i false)) := by
  have h1 : i < (tag_mnemonic mc c).length := by
    rw [length_tag_mnemonic]; exact h
  have h2 : i < (maskNot (tag_push_data mc)).length := by
    rw [length_maskNot, length_tag_push_data]; exact h
  have h3 : i < (tag_push_data mc).length := by
    rw [length_tag_push_data]; exact h
  simp only [maskAnd]
  rw [getD_zipWith_and _ _ i h1 h2]
  simp only [tag_mnemonic, maskNot]
  rw [getD_map_lt mc _ i h false 0,
    getD_map_lt (tag_push_data mc) _ i h3 false false]

lemma end_flag_mask_of_all_false (mc : List Nat) :
    end_flag_mask_of mc = mc.map (fun _ => false) := by
  apply List.ext_getElem
  · simp [length_end_flag_mask_of]
  · intro i h1 h2
    have hmc : i < mc.length := by simpa [length_end_flag_mask_of] using h1
    rw [← List.getD_eq_getElem (end_flag_mask_of mc) false h1,
      ← List.getD_eq_getElem (mc.map fun _ => false) false h2,
      getD_map_lt mc _ i hmc false 0]
    have lj : i < (jump_mask_of mc).length := by
      rw [length_jump_mask_of]; exact hmc
    have ls : i < (stop_mask_of mc).length := by
      rw [length_stop_mask_of]; exact hmc
    have lr : i < (return_mask_of mc).length := by
      rw [length_return_mask_of]; exact hmc
    have ld : i < (selfdestruct_mask_of mc).length := by
      rw [length_selfdestruct_mask_of]; exact hmc
    have l34 : i < (List.zipWith and (return_mask_of mc)
        (selfdestruct_mask_of mc)).length := by
      rw [List.length_zipWith]; omega
    have l234 : i < (List.zipWith and (stop_mask_of mc)
        (List.zipWith and (return_mask_of mc)
          (selfdestruct_mask_of mc))).length := by
      rw [List.length_zipWith, List.length_zipWith]; omega
    simp only [end_flag_mask_of, maskAnd]
    rw [getD_zipWith_and _ _ i lj l234, getD_zipWith_and _ _ i ls l34]
    simp only [jump_mask_of, stop_mask_of]
    rw [getD_masked_mnemonic mc JUMP_BYTE i hmc,
      getD_masked_mnemonic mc STOP_BYTE i hmc]
    by_cases h86 : (mc.getD i 0 == JUMP_BYTE) = true
    · have heq : mc.getD i 0 = JUMP_BYTE := by simpa using h86
      have h0 : (mc.getD i 0 == STOP_BYTE) = false := by
        rw [heq]; rfl
      rw [h0]
      simp
    · have h86f : (mc.getD i 0 == JUMP_BYTE) = false := by
        simpa using h86
      rw [h86f]
      simp

/-- C1: the orchestrator is claimed to pass the pointwise logical OR of the
four terminator masks to the segmenter, but the code computes their
logical AND, which is all-false for every bytecode (no byte is four
distinct opcodes at once); on the one-byte bytecode `0x00` (`STOP`) the
claimed OR mask is `[true]` while the mask the code builds is `[false]`. -/
theorem C1_end_mask_is_and_not_or :
    (∀ mc : List Nat, end_flag_mask_of mc = mc.map (fun _ => false)) ∧
    end_flag_mask_spec_or [STOP_BYTE] = [true] ∧
    end_flag_mask_of [STOP_BYTE] = [false] := by
  refine ⟨end_flag_mask_of_all_false, by decide, by decide⟩

/-- C3: on the bytecode `0x5b 0x00` (`JUMPDEST`, `STOP`) `analyze` is
claimed to return the verdict `[code, code]`; the code instead raises
(`get_compound_subsets` of the all-false push-data mask yields `[[]]` and
`_get_pushjump_data` indexes `set[0]` on the empty run), embedded here as
`none`, for every threshold and every fuel. -/
theorem C3_analyze_5b00_raises :
    ∀ (stop_threshold_num stop_threshold_den fuel : Nat),
      analyze [JUMPDEST_BYTE, STOP_BYTE] stop_threshold_num
        stop_threshold_den fuel = none := by
  intro stop_threshold_num stop_threshold_den fuel
  rfl

/-- C4: on the empty bytecode `analyze` is claimed to return an empty mask
(and a header-only report); the code instead raises (the same empty-run
`IndexError` as in C3, after the `np.invert` `TypeError` on the empty
float-dtype masks), embedded here as `none`, for every threshold and every
fuel. -/
theorem C4_analyze_empty_raises :
    ∀ (stop_threshold_num stop_threshold_den fuel : Nat),
      analyze [] stop_threshold_num stop_threshold_den fuel = none := by
  intro stop_threshold_num stop_threshold_den fuel
  rfl

/-! ### Folding lemmas (C9) -/

lemma parseBin_foldl (l : List Bool) : ∀ a : Nat,
    l.foldl (fun acc bit => 2 * acc + (if bit then 1 else 0)) a
      = a * 2 ^ l.length + parseBin l := by
  induction l with
  | nil => intro a; simp [parseBin]
  | cons b rest ih =>
    intro a
    have hv : parseBin (b :: rest)
        = (if b then 1 else 0) * 2 ^ rest.length + parseBin rest := by
      simp only [parseBin, List.foldl_cons]
      rw [ih (2 * 0 + (if b then 1 else 0))]
      simp [parseBin]
    simp only [List.foldl_cons]
    rw [ih (2 * a + (if b then 1 else 0)), hv, List.length_cons, pow_succ]
    ring

lemma parseBin_append (xs ys : List Bool) :
    parseBin (xs ++ ys) = parseBin xs * 2 ^ ys.length + parseBin ys := by
  unfold parseBin
  rw [List.foldl_append]
  exact parseBin_foldl ys _

lemma parseBin_replicate_false (k : Nat) :
    parseBin (List.replicate k false) = 0 := by
  induction k with
  | zero => rfl
  | succ k ih =>
    rw [List.replicate_succ, ← List.singleton_append, parseBin_append, ih]
    simp [parseBin]

lemma parseBin_natBinAux : ∀ (fuel n : Nat), n ≤ fuel →
    parseBin (natBinAux fuel n) = n := by
  intro fuel
  induction fuel with
  | zero =>
    intro n h
    have : n = 0 := Nat.le_zero.mp h
    subst this
    rfl
  | succ fuel ih =>
    intro n h
    match n with
    | 0 => rfl
    | m + 1 =>
      have hdiv : (m + 1) / 2 ≤ fuel := by omega
      have hrec := ih ((m + 1) / 2) hdiv
      rw [natBinAux, parseBin_append, hrec]
      have hbit : parseBin [((m + 1) % 2 == 1)] = (m + 1) % 2 := by
        rcases Nat.mod_two_eq_zero_or_one (m + 1) with hm | hm <;>
          simp [parseBin, hm]
      rw [hbit]
      have := Nat.div_add_mod (m + 1) 2
      simp [pow_succ]
      omega

lemma parseBin_natBinDigits (n : Nat) : parseBin (natBinDigits n) = n :=
  parseBin_natBinAux n n le_rfl

lemma parseBin_pyFormatB08 (b : Nat) : parseBin (pyFormatB08 b) = b := by
  unfold pyFormatB08
  by_cases hb : b = 0
  · subst hb
    simp [parseBin_append, parseBin_replicate_false, parseBin]
  · simp only [if_neg hb]
    rw [parseBin_append, parseBin_replicate_false, parseBin_natBinDigits]
    omega

lemma length_natBinAux_le : ∀ (fuel k n : Nat), n ≤ fuel → n < 2 ^ k →
    (natBinAux fuel n).length ≤ k := by
  intro fuel
  induction fuel with
  | zero =>
    intro k n h _
    have : n = 0 := Nat.le_zero.mp h
    subst this
    simp [natBinAux]
  | succ fuel ih =>
    intro k n h hk
    match n with
    | 0 => simp [natBinAux]
    | m + 1 =>
      match k with
      | 0 => omega
      | j + 1 =>
        have hdiv : (m + 1) / 2 ≤ fuel := by omega
        have hlt : (m + 1) / 2 < 2 ^ j := by
          have : m + 1 < 2 ^ j * 2 := by
            have : (2 : Nat) ^ (j + 1) = 2 ^ j * 2 := by ring
            omega
          omega
        have := ih j ((m + 1) / 2) hdiv hlt
        rw [natBinAux]
        simp only [List.length_append, List.length_cons, List.length_nil]
        omega

lemma length_pyFormatB08 (b : Nat) (h : b < 256) :
    (pyFormatB08 b).length = 8 := by
  unfold pyFormatB08
  by_cases hb : b = 0
  · subst hb; rfl
  · simp only [if_neg hb, List.length_append, List.length_replicate]
    have : (natBinDigits b).length ≤ 8 :=
      length_natBinAux_le b 8 b le_rfl (by norm_num; omega)
    omega

lemma length_flatten_pyFormatB08 (s : List Nat) (h : ∀ b ∈ s, b < 256) :
    ((s.map pyFormatB08).flatten).length = 8 * s.length := by
  induction s with
  | nil => rfl
  | cons x rest ih =>
    simp only [List.map_cons, List.flatten_cons, List.length_append,
      List.length_cons]
    rw [length_pyFormatB08 x (h x (by simp)),
      ih (fun b hb => h b (by simp [hb]))]
    ring

lemma compound_bytes_to_integer_eq_sum :
    ∀ (s : List Nat), (∀ b ∈ s, b < 256) →
      compound_bytes_to_integer s
        = ∑ i ∈ Finset.range s.length, s.getD i 0 * 256 ^ (s.length - 1 - i) := by
  intro s
  induction s with
  | nil => intro _; rfl
  | cons x rest ih =>
    intro h
    have hx : x < 256 := h x (by simp)
    have hrest : ∀ b ∈ rest, b < 256 := fun b hb => h b (by simp [hb])
    unfold compound_bytes_to_integer
    simp only [List.map_cons, List.flatten_cons]
    rw [parseBin_append, parseBin_pyFormatB08,
      length_flatten_pyFormatB08 rest hrest]
    have hcr : parseBin ((rest.map pyFormatB08).flatten)
        = ∑ i ∈ Finset.range rest.length,
            rest.getD i 0 * 256 ^ (rest.length - 1 - i) := ih hrest
    rw [hcr]
    have hpow : (2 : Nat) ^ (8 * rest.length) = 256 ^ rest.length := by
      rw [pow_mul]
      norm_num
    rw [hpow]
    rw [List.length_cons, Finset.sum_range_succ']
    have hhead : (x :: rest).getD 0 0 * 256 ^ (rest.length + 1 - 1 - 0)
        = x * 256 ^ rest.length := by simp
    have hshift : ∀ i, (x :: rest).getD (i + 1) 0
        * 256 ^ (rest.length + 1 - 1 - (i + 1))
        = rest.getD i 0 * 256 ^ (rest.length - 1 - i) := by
      intro i
      have heq : rest.length + 1 - 1 - (i + 1) = rest.length - 1 - i := by omega
      rw [heq]
      rfl
    rw [hhead]
    simp only [hshift]
    ring

/-- C9: for every non-empty list of byte values (each below 256),
`compound_bytes_to_integer` returns the integer whose base-256 digits are
the input bytes, most significant first. -/
theorem C9_compound_bytes_big_endian (s : List Nat) (hne : s ≠ [])
    (hb : ∀ b ∈ s, b < 256) :
    compound_bytes_to_integer s
      = ∑ i ∈ Finset.range s.length, s.getD i 0 * 256 ^ (s.length - 1 - i) :=
  compound_bytes_to_integer_eq_sum s hb

/-- Witness for C9 at the concrete byte list `[0xab, 0xcd]`. -/
theorem C9_compound_bytes_big_endian_witness :
    compound_bytes_to_integer [171, 205]
      = ∑ i ∈ Finset.range ([171, 205] : List Nat).length,
          ([171, 205] : List Nat).getD i 0
            * 256 ^ (([171, 205] : List Nat).length - 1 - i) :=
  C9_compound_bytes_big_endian [171, 205] (by decide) (by decide)

/-! ### Segment numbering lemmas (C8) -/

lemma segmentAux_mem_ge : ∀ (l : List (Bool × Bool)) (c : Nat),
    ∀ x ∈ segmentAux l c, c ≤ x := by
  intro l
  induction l with
  | nil => intro c x hx; simp [segmentAux] at hx
  | cons p rest ih =>
    intro c x hx
    obtain ⟨s, e⟩ := p
    cases s <;> cases e <;> simp only [segmentAux, List.mem_cons] at hx <;>
      rcases hx with h | h
    · omega
    · exact ih c x h
    · omega
    · have := ih (c + 1) x h; omega
    · omega
    · have := ih (c + 1) x h; omega
    · omega
    · have := ih (c + 1) x h; omega

lemma segmentAux_chain : ∀ (l : List (Bool × Bool)) (c : Nat),
    List.Chain' (· ≤ ·) (segmentAux l c) := by
  intro l
  induction l with
  | nil => intro c; simp [segmentAux]
  | cons p rest ih =>
    intro c
    obtain ⟨s, e⟩ := p
    cases s <;> cases e <;> simp only [segmentAux] <;>
      rw [List.chain'_cons']
    · refine ⟨fun b hb => ?_, ih c⟩
      exact segmentAux_mem_ge rest c b (List.mem_of_mem_head? hb)
    · refine ⟨fun b hb => ?_, ih (c + 1)⟩
      have := segmentAux_mem_ge rest (c + 1) b (List.mem_of_mem_head? hb)
      omega
    · refine ⟨fun b hb => ?_, ih (c + 1)⟩
      exact segmentAux_mem_ge rest (c + 1) b (List.mem_of_mem_head? hb)
    · refine ⟨fun b hb => ?_, ih (c + 1)⟩
      exact segmentAux_mem_ge rest (c + 1) b (List.mem_of_mem_head? hb)

lemma segmentAux_zero_before_flag : ∀ (l : List (Bool × Bool)) (i : Nat),
    i < l.findIdx (fun p => p.1 || p.2) → (segmentAux l 0).getD i 0 = 0 := by
  intro l
  induction l with
  | nil => intro i h; simp [List.findIdx_nil] at h
  | cons p rest ih =>
    intro i h
    obtain ⟨s, e⟩ := p
    rw [List.findIdx_cons] at h
    cases s with
    | true => simp at h
    | false =>
      cases e with
      | true => simp at h
      | false =>
        simp only [Bool.or_self, cond_false] at h
        match i with
        | 0 => simp [segmentAux]
        | j + 1 =>
          have hj : j < rest.findIdx (fun p => p.1 || p.2) := by omega
          simpa [segmentAux] using ih j hj

lemma segmentAux_erase_end_at_start : ∀ (l : List (Bool × Bool)) (c : Nat),
    segmentAux l c = segmentAux (l.map (fun p => (p.1, !p.1 && p.2))) c := by
  intro l
  induction l with
  | nil => intro c; rfl
  | cons p rest ih =>
    intro c
    obtain ⟨s, e⟩ := p
    cases s <;> cases e <;> simp [segmentAux, ih]

lemma zip_zipWith_erase (s : List Bool) : ∀ (e : List Bool),
    s.zip (List.zipWith (fun a b => !a && b) s e)
      = (s.zip e).map (fun p => (p.1, !p.1 && p.2)) := by
  induction s with
  | nil => intro e; rfl
  | cons a s ih =>
    intro e
    cases e with
    | nil => rfl
    | cons b e => simp [ih]

/-- C8 counterexample: with no start flag anywhere (`[false, false]`) but
an end flag at position 0, `segment_list` emits `[0, 1]`: position 1 lies
before the first start flag yet receives id 1, refuting the claim that
all positions before the first start flag receive id 0. -/
theorem C8_counterexample_before_first_start :
    ([false, false] : List Bool).all (fun b => !b) = true ∧
    segment_list [false, false] [true, false] = [0, 1] ∧
    (segment_list [false, false] [true, false]).getD 1 0 = 1 := by
  decide

/-- C8 (amended): `segment_list` follows the numbering walk (start flags
pre-increment and win over end flags, end flags emit then increment):
the output is non-decreasing, the positions before the first position
carrying either flag (not merely before the first start flag, since end
flags also move the counter) receive id 0, and end flags at positions
that also carry a start flag can be erased without changing the output
(start wins). -/
theorem C8_segment_list_walk :
    (∀ (flags_segment_start flags_segment_end : List Bool),
      List.Chain' (· ≤ ·)
        (segment_list flags_segment_start flags_segment_end)) ∧
    (∀ (flags_segment_start flags_segment_end : List Bool) (i : Nat),
      i < (flags_segment_start.zip flags_segment_end).findIdx
        (fun p => p.1 || p.2) →
      (segment_list flags_segment_start flags_segment_end).getD i 0 = 0) ∧
    (∀ (flags_segment_start flags_segment_end : List Bool),
      segment_list flags_segment_start flags_segment_end
        = segment_list flags_segment_start
            (List.zipWith (fun a b => !a && b) flags_segment_start
              flags_segment_end)) := by
  refine ⟨?_, ?_, ?_⟩
  · intro starts ends_
    exact segmentAux_chain (starts.zip ends_) 0
  · intro starts ends_ i h
    exact segmentAux_zero_before_flag (starts.zip ends_) i h
  · intro starts ends_
    unfold segment_list
    rw [zip_zipWith_erase]
    exact segmentAux_erase_end_at_start (starts.zip ends_) 0

/-- Witness for C8 at concrete flag lists: position 0 lies before the
first flagged position of `start = [false, true]`, `end = [false, false]`
and receives id 0. -/
theorem C8_segment_list_walk_witness :
    (segment_list [false, true] [false, false]).getD 0 0 = 0 :=
  C8_segment_list_walk.2.1 [false, true] [false, false] 0 (by decide)

/-! ### Compound subset lemmas (C2) -/

lemma trueIdx_mem_ge : ∀ (l : List Bool) (i x : Nat), x ∈ trueIdx i l → i ≤ x := by
  intro l
  induction l with
  | nil => intro i x hx; simp [trueIdx] at hx
  | cons b rest ih =>
    intro i x hx
    cases b with
    | false =>
      simp only [trueIdx] at hx
      have := ih (i + 1) x hx
      omega
    | true =>
      simp only [trueIdx, if_true, List.mem_cons] at hx
      rcases hx with h | h
      · omega
      · have := ih (i + 1) x h
        omega

lemma trueIdx_shift : ∀ (l : List Bool) (i : Nat),
    trueIdx (i + 1) l = (trueIdx i l).map Nat.succ := by
  intro l
  induction l with
  | nil => intro i; rfl
  | cons b rest ih =>
    intro i
    cases b with
    | false => simp only [trueIdx]; exact ih (i + 1)
    | true =>
      simp only [trueIdx, if_true, List.map_cons, Nat.succ_eq_add_one]
      rw [ih (i + 1)]

lemma trueIdx_eq_nil_iff : ∀ (l : List Bool) (i : Nat),
    trueIdx i l = [] ↔ ¬ (true ∈ l) := by
  intro l
  induction l with
  | nil => intro i; simp [trueIdx]
  | cons b rest ih =>
    intro i
    cases b with
    | false => simp only [trueIdx]; rw [ih (i + 1)]; simp
    | true => simp only [trueIdx]; simp

lemma filter_map_succ (xs : List Nat) (p : Nat → Bool) :
    (xs.map Nat.succ).filter p = (xs.filter (fun x => p (x + 1))).map Nat.succ := by
  induction xs with
  | nil => rfl
  | cons x xs ih =>
    simp only [List.map_cons, List.filter_cons, Nat.succ_eq_add_one]
    by_cases hp : p (x + 1)
    · simp only [hp, if_true, List.map_cons, ih]
    · simp only [hp, if_false, ih]
      simp

lemma filter_range_getD : ∀ (l : List Bool),
    (List.range l.length).filter (fun j => l.getD j false == true)
      = trueIdx 0 l := by
  intro l
  induction l with
  | nil => rfl
  | cons b rest ih =>
    rw [List.length_cons, List.range_succ_eq_map, List.filter_cons]
    have hpred : ((b :: rest).getD 0 false == true) = b := by
      cases b <;> rfl
    rw [filter_map_succ]
    have hsh : (fun x => (b :: rest).getD (x + 1) false == true)
        = (fun x => rest.getD x false == true) := by
      funext x
      rfl
    rw [hsh, ih, hpred]
    cases b with
    | false =>
      simp only [trueIdx]
      rw [trueIdx_shift rest 0]
      simp
    | true =>
      simp only [trueIdx]
      rw [trueIdx_shift rest 0]
      simp

lemma chunkConsec_ne_nil : ∀ (l : List Nat), l ≠ [] → chunkConsec l ≠ [] := by
  intro l h
  match l with
  | [a] => simp [chunkConsec]
  | a :: b :: rest =>
    by_cases hgap : b - a > 1
    · simp [chunkConsec, if_pos hgap]
    · simp only [chunkConsec, if_neg hgap]
      cases chunkConsec (b :: rest) <;> simp

lemma chunkConsec_far : ∀ (a : Nat) (X : List Nat),
    (∀ x ∈ X, a + 1 < x) → chunkConsec (a :: X) = [a] :: chunkConsec X := by
  intro a X h
  cases X with
  | nil => rfl
  | cons x xs =>
    have : x - a > 1 := by
      have := h x (by simp)
      omega
    simp [chunkConsec, if_pos this]

lemma specRunsCons_ne_nil : ∀ (i : Nat) (rest : List Bool)
    (rs : List (List Nat)), specRunsCons i rest rs ≠ [] := by
  intro i rest rs
  match rest, rs with
  | true :: t, r :: rs2 => simp [specRunsCons]
  | true :: t, [] => simp [specRunsCons]
  | false :: t, rs2 => simp [specRunsCons]
  | [], rs2 => simp [specRunsCons]

lemma specRunsFrom_true_ne_nil : ∀ (rest : List Bool) (i : Nat),
    specRunsFrom i (true :: rest) ≠ [] := by
  intro rest i
  simp only [specRunsFrom]
  exact specRunsCons_ne_nil i rest _

lemma specRunsFrom_true_true (i : Nat) (rest2 : List Bool) (r : List Nat)
    (rs : List (List Nat)) (h : specRunsFrom (i + 1) (true :: rest2) = r :: rs) :
    specRunsFrom i (true :: true :: rest2) = (i :: r) :: rs := by
  show specRunsCons i (true :: rest2) (specRunsFrom (i + 1) (true :: rest2))
      = (i :: r) :: rs
  rw [h]
  rfl

lemma chunk_trueIdx : ∀ (l : List Bool) (i : Nat),
    chunkConsec (trueIdx i l) = specRunsFrom i l := by
  intro l
  induction l with
  | nil => intro i; rfl
  | cons b rest ih =>
    intro i
    cases b with
    | false => simp only [trueIdx, specRunsFrom]; exact ih (i + 1)
    | true =>
      cases rest with
      | nil => rfl
      | cons b2 rest2 =>
        cases b2 with
        | false =>
          simp only [trueIdx]
          have hfar : ∀ x ∈ trueIdx (i + 1 + 1) rest2, i + 1 < x := by
            intro x hx
            have := trueIdx_mem_ge rest2 (i + 2) x hx
            omega
          rw [chunkConsec_far i _ hfar]
          have hrec := ih (i + 1)
          simp only [trueIdx, specRunsFrom] at hrec
          rw [hrec]
          rfl
        | true =>
          simp only [trueIdx]
          cases h : specRunsFrom (i + 1) (true :: rest2) with
          | nil => exact absurd h (specRunsFrom_true_ne_nil rest2 (i + 1))
          | cons r rs =>
            have hrec : chunkConsec (trueIdx (i + 1) (true :: rest2)) = r :: rs := by
              rw [ih (i + 1), h]
            have hti : trueIdx (i + 1) (true :: rest2)
                = (i + 1) :: trueIdx (i + 2) rest2 := by
              simp [trueIdx]
            rw [hti] at hrec
            have hstep : chunkConsec (i :: (i + 1) :: trueIdx (i + 2) rest2)
                = (i :: r) :: rs := by
              have hgap : ¬ ((i + 1) - i > 1) := by omega
              simp only [chunkConsec, if_neg hgap]
              rw [hrec]
            rw [hstep, specRunsFrom_true_true i rest2 r rs h]

lemma buildGroups_final_ge : ∀ (idx : List Nat) (n : Nat),
    n ≤ (buildGroups idx n).2 := by
  intro idx
  induction idx with
  | nil => intro n; simp [buildGroups]
  | cons a tail ih =>
    intro n
    cases tail with
    | nil => simp [buildGroups]
    | cons b rest =>
      simp only [buildGroups]
      by_cases hgap : b - a > 1
      · rw [if_pos hgap]
        have := ih (n + 1)
        omega
      · rw [if_neg hgap]
        exact ih n

lemma buildGroups_mem_ge : ∀ (idx : List Nat) (n g : Nat),
    g ∈ (buildGroups idx n).1 → n ≤ g := by
  intro idx
  induction idx with
  | nil => intro n g hg; simp [buildGroups] at hg
  | cons a tail ih =>
    intro n g hg
    cases tail with
    | nil =>
      simp [buildGroups] at hg
      omega
    | cons b rest =>
      simp only [buildGroups, List.mem_cons] at hg
      rcases hg with h | h
      · omega
      · by_cases hgap : b - a > 1
        · rw [if_pos hgap] at h
          have := ih (n + 1) g h
          omega
        · rw [if_neg hgap] at h
          exact ih n g h

lemma collect_eq_chunk : ∀ (idx : List Nat), idx ≠ [] → ∀ (n : Nat),
    (List.range' n ((buildGroups idx n).2 + 1 - n)).map
      (fun g => ((idx.zip (buildGroups idx n).1).filter
        (fun pr => pr.2 == g)).map Prod.fst)
    = chunkConsec idx := by
  intro idx
  induction idx with
  | nil => intro h; exact absurd rfl h
  | cons a tail ih =>
    intro _ n
    cases tail with
    | nil =>
      simp only [buildGroups, Nat.add_sub_cancel_left, List.range'_one,
        List.map_cons, List.map_nil, List.zip_cons_cons, List.zip_nil_right,
        List.filter_cons, beq_self_eq_true, if_true, List.filter_nil,
        chunkConsec]
    | cons b rest =>
      by_cases hgap : b - a > 1
      · have hbg : buildGroups (a :: b :: rest) n
            = (n :: (buildGroups (b :: rest) (n + 1)).1,
               (buildGroups (b :: rest) (n + 1)).2) := by
          simp [buildGroups, if_pos hgap]
        rw [hbg]
        have hfin : n + 1 ≤ (buildGroups (b :: rest) (n + 1)).2 :=
          buildGroups_final_ge (b :: rest) (n + 1)
        have hcount : (buildGroups (b :: rest) (n + 1)).2 + 1 - n
            = ((buildGroups (b :: rest) (n + 1)).2 - n) + 1 := by omega
        rw [hcount, List.range'_succ, List.map_cons]
        have hch : chunkConsec (a :: b :: rest)
            = [a] :: chunkConsec (b :: rest) := by
          simp [chunkConsec, if_pos hgap]
        rw [hch]
        congr 1
        · -- head bucket: only the pair (a, n) matches group n
          simp only [List.zip_cons_cons, List.filter_cons, beq_self_eq_true,
            if_true]
          have hnil : ((b :: rest).zip
              (buildGroups (b :: rest) (n + 1)).1).filter
              (fun pr => pr.2 == n) = [] := by
            rw [List.filter_eq_nil_iff]
            intro pr hpr
            obtain ⟨p1, p2⟩ := pr
            have hmem := (List.of_mem_zip hpr).2
            have := buildGroups_mem_ge (b :: rest) (n + 1) p2 hmem
            simp only [beq_iff_eq]
            omega
          rw [hnil]
          rfl
        · -- tail buckets: the pair (a, n) never matches a group above n
          have hmapeq : (List.range' (n + 1)
              ((buildGroups (b :: rest) (n + 1)).2 - n)).map
              (fun g => (((a :: b :: rest).zip
                (n :: (buildGroups (b :: rest) (n + 1)).1)).filter
                (fun pr => pr.2 == g)).map Prod.fst)
              = (List.range' (n + 1)
              ((buildGroups (b :: rest) (n + 1)).2 - n)).map
              (fun g => (((b :: rest).zip
                (buildGroups (b :: rest) (n + 1)).1).filter
                (fun pr => pr.2 == g)).map Prod.fst) := by
            apply List.map_congr_left
            intro g hg
            obtain ⟨i, _, hgi⟩ := List.mem_range'.mp hg
            have hgn : n ≠ g := by omega
            simp only [List.zip_cons_cons, List.filter_cons]
            have : (n == g) = false := by
              simp only [beq_eq_false_iff_ne, ne_eq]
              exact hgn
            rw [this]
            simp
          rw [hmapeq]
          have hcount2 : (buildGroups (b :: rest) (n + 1)).2 - n
              = (buildGroups (b :: rest) (n + 1)).2 + 1 - (n + 1) := by omega
          rw [hcount2]
          exact ih (by simp) (n + 1)
      · have hbg : buildGroups (a :: b :: rest) n
            = (n :: (buildGroups (b :: rest) n).1,
               (buildGroups (b :: rest) n).2) := by
          simp [buildGroups, if_neg hgap]
        rw [hbg]
        have hfin : n ≤ (buildGroups (b :: rest) n).2 :=
          buildGroups_final_ge (b :: rest) n
        have hcount : (buildGroups (b :: rest) n).2 + 1 - n
            = ((buildGroups (b :: rest) n).2 - n) + 1 := by omega
        have hIH := ih (by simp) n
        rw [hcount, List.range'_succ, List.map_cons] at hIH ⊢
        cases hchk : chunkConsec (b :: rest) with
        | nil => exact absurd hchk (chunkConsec_ne_nil (b :: rest) (by simp))
        | cons c cs =>
          rw [hchk] at hIH
          have hhead : (((b :: rest).zip
              (buildGroups (b :: rest) n).1).filter
              (fun pr => pr.2 == n)).map Prod.fst = c :=
            (List.cons.injEq _ _ _ _).mp hIH |>.1
          have htail : (List.range' (n + 1)
              ((buildGroups (b :: rest) n).2 - n)).map
              (fun g => (((b :: rest).zip
                (buildGroups (b :: rest) n).1).filter
                (fun pr => pr.2 == g)).map Prod.fst) = cs :=
            (List.cons.injEq _ _ _ _).mp hIH |>.2
          have hch : chunkConsec (a :: b :: rest) = (a :: c) :: cs := by
            simp only [chunkConsec, if_neg hgap]
            rw [hchk]
          rw [hch]
          congr 1
          · simp only [List.zip_cons_cons, List.filter_cons, beq_self_eq_true,
              if_true, List.map_cons]
            rw [hhead]
          · rw [← htail]
            apply List.map_congr_left
            intro g hg
            obtain ⟨i, _, hgi⟩ := List.mem_range'.mp hg
            have hgn : n ≠ g := by omega
            simp only [List.zip_cons_cons, List.filter_cons]
            have : (n == g) = false := by
              simp only [beq_eq_false_iff_ne, ne_eq]
              exact hgn
            rw [this]
            simp

lemma compound_subsets_all_false (l : List Bool) (h : ¬ true ∈ l) :
    get_compound_subsets l = [[]] := by
  have hidx : (List.range l.length).filter (fun i => l.getD i false == true)
      = [] := by
    rw [filter_range_getD]
    exact (trueIdx_eq_nil_iff l 0).mpr h
  simp only [get_compound_subsets]
  rw [hidx]
  rfl

/-- C2 counterexample: on the all-false mask `[false]` the function
returns `[[]]`, a one-element list holding an empty run, not the empty
list the claim demands. -/
theorem C2_counterexample_all_false :
    get_compound_subsets [false] = [[]] ∧ ([[]] : List (List Nat)) ≠ [] := by
  constructor
  · rfl
  · simp

/-- C2 (amended): for every mask containing at least one true position,
`get_compound_subsets` returns exactly the ordered list of maximal
contiguous runs of true positions (each run an increasing list of
indices); on an all-false mask it returns `[[]]` (one empty run), not the
empty list. -/
theorem C2_compound_subsets_runs (l : List Bool) :
    get_compound_subsets l = if true ∈ l then specRunsFrom 0 l else [[]] := by
  by_cases h : true ∈ l
  · rw [if_pos h]
    have hidx : (List.range l.length).filter (fun i => l.getD i false == true)
        = trueIdx 0 l := filter_range_getD l
    have hne : trueIdx 0 l ≠ [] := by
      intro hnil
      exact ((trueIdx_eq_nil_iff l 0).mp hnil) h
    simp only [get_compound_subsets]
    rw [hidx, List.range_eq_range']
    have h3 := (collect_eq_chunk (trueIdx 0 l) hne 0).trans (chunk_trueIdx l 0)
    simpa using h3
  · rw [if_neg h]
    exact compound_subsets_all_false l h

/-! ### Push value extraction lemmas (C7) -/

lemma compound_subsets_eq_specRuns (l : List Bool) (h : true ∈ l) :
    get_compound_subsets l = specRunsFrom 0 l := by
  have hidx : (List.range l.length).filter (fun i => l.getD i false == true)
      = trueIdx 0 l := filter_range_getD l
  have hne : trueIdx 0 l ≠ [] := by
    intro hnil
    exact ((trueIdx_eq_nil_iff l 0).mp hnil) h
  simp only [get_compound_subsets]
  rw [hidx, List.range_eq_range']
  have h3 := (collect_eq_chunk (trueIdx 0 l) hne 0).trans (chunk_trueIdx l 0)
  simpa using h3

lemma specRunsFrom_nil_of_no_true (l : List Bool) (i : Nat)
    (h : ¬ true ∈ l) : specRunsFrom i l = [] := by
  rw [← chunk_trueIdx l i, (trueIdx_eq_nil_iff l i).mpr h]
  rfl

lemma specRunsFrom_runs_ne_nil : ∀ (l : List Bool) (i : Nat) (r : List Nat),
    r ∈ specRunsFrom i l → r ≠ [] := by
  intro l
  induction l with
  | nil => intro i r hr; simp [specRunsFrom] at hr
  | cons b rest ih =>
    intro i r hr
    cases b with
    | false =>
      simp only [specRunsFrom] at hr
      exact ih (i + 1) r hr
    | true =>
      simp only [specRunsFrom] at hr
      cases rest with
      | nil =>
        simp only [specRunsFrom, specRunsCons, List.mem_singleton] at hr
        subst hr
        simp
      | cons b2 t =>
        cases b2 with
        | false =>
          simp only [specRunsCons, List.mem_cons] at hr
          rcases hr with h | h
          · subst h; simp
          · exact ih (i + 1) r h
        | true =>
          cases hrs : specRunsFrom (i + 1) (true :: t) with
          | nil => exact absurd hrs (specRunsFrom_true_ne_nil t (i + 1))
          | cons r2 rs2 =>
            rw [hrs] at hr
            simp only [specRunsCons, List.mem_cons] at hr
            rcases hr with h | h
            · subst h; simp
            · exact ih (i + 1) r
                (by rw [hrs]; exact List.mem_cons_of_mem _ h)

lemma push_fold_mem : ∀ (mc : List Nat) (runs : List (List Nat)),
    (∀ r ∈ runs, r ≠ []) →
    ∃ l, push_fold mc runs = some l ∧
      ∀ r ∈ runs, r.getLastD 0 + 1 < mc.length →
        compound_bytes_to_integer
          ((mc.drop (r.headD 0)).take (r.getLastD 0 + 1 - r.headD 0)) ∈ l := by
  intro mc runs
  induction runs with
  | nil => intro _; exact ⟨[], rfl, by simp⟩
  | cons r rs ih =>
    intro h
    match r with
    | [] => exact absurd rfl (h [] (by simp))
    | a :: r2 =>
      obtain ⟨l, hl, hmem⟩ := ih (fun r' hr' => h r' (List.mem_cons_of_mem _ hr'))
      have hunfold : push_fold mc ((a :: r2) :: rs)
          = (push_fold mc rs).map (fun tail =>
            if (a :: r2).getLastD 0 + 1 < mc.length then
              compound_bytes_to_integer
                ((mc.drop a).take ((a :: r2).getLastD 0 + 1 - a)) :: tail
            else tail) := rfl
      by_cases hcond : (a :: r2).getLastD 0 + 1 < mc.length
      · refine ⟨compound_bytes_to_integer
          ((mc.drop a).take ((a :: r2).getLastD 0 + 1 - a)) :: l, ?_, ?_⟩
        · rw [hunfold, hl, Option.map_some', if_pos hcond]
        · intro r' hr' hlast'
          rcases List.mem_cons.mp hr' with heq | htl
          · subst heq
            simp only [List.headD_cons]
            exact List.mem_cons_self _ _
          · exact List.mem_cons_of_mem _ (hmem r' htl hlast')
      · refine ⟨l, ?_, ?_⟩
        · rw [hunfold, hl, Option.map_some', if_neg hcond]
        · intro r' hr' hlast'
          rcases List.mem_cons.mp hr' with heq | htl
          · subst heq
            exact absurd hlast' hcond
          · exact hmem r' htl hlast'

/-- C7 counterexample: on the bytecode `0x60 0x05` (`PUSH1 0x05`) the
push-data mask has the single maximal run `[1]`, whose last position is
the final byte; its folded value is 5, yet `_get_push_data` returns the
empty value list, so that value is missing. -/
theorem C7_counterexample_final_byte_run :
    specRunsFrom 0 (tag_push_data [96, 5]) = [[1]] ∧
    compound_bytes_to_integer [5] = 5 ∧
    get_push_data [96, 5] (tag_push_data [96, 5]) = some [] := by
  refine ⟨rfl, rfl, rfl⟩

/-- C7 (amended): the push-immediate value set contains the big-endian
folded value of every maximal run of the push-data mask whose last
position is *not* the final byte of the bytecode (`set_end + 1 < N`);
runs ending at the final byte are skipped by `_get_push_data`. -/
theorem C7_push_data_values (B : List Nat) (r : List Nat)
    (hr : r ∈ specRunsFrom 0 (tag_push_data B))
    (hlast : r.getLastD 0 + 1 < B.length) :
    ∃ l, get_push_data B (tag_push_data B) = some l ∧
      compound_bytes_to_integer
        ((B.drop (r.headD 0)).take (r.getLastD 0 + 1 - r.headD 0)) ∈ l := by
  have htrue : true ∈ tag_push_data B := by
    by_contra hno
    rw [specRunsFrom_nil_of_no_true (tag_push_data B) 0 hno] at hr
    simp at hr
  have hgcs : get_compound_subsets (tag_push_data B)
      = specRunsFrom 0 (tag_push_data B) :=
    compound_subsets_eq_specRuns _ htrue
  have hne : ∀ r' ∈ specRunsFrom 0 (tag_push_data B), r' ≠ [] :=
    fun r' hr' => specRunsFrom_runs_ne_nil (tag_push_data B) 0 r' hr'
  obtain ⟨l, hl, hmem⟩ := push_fold_mem B _ hne
  refine ⟨l, ?_, hmem r hr hlast⟩
  unfold get_push_data
  rw [hgcs]
  exact hl

/-- Witness for C7 at the bytecode `0x60 0x05 0x00` (`PUSH1 0x05`,
`STOP`): the run `[1]` ends before the final byte and its folded value 5
is returned. -/
theorem C7_push_data_values_witness :
    ∃ l, get_push_data [96, 5, 0] (tag_push_data [96, 5, 0]) = some l ∧
      compound_bytes_to_integer
        ((([96, 5, 0] : List Nat).drop (([1] : List Nat).headD 0)).take
          (([1] : List Nat).getLastD 0 + 1 - ([1] : List Nat).headD 0)) ∈ l :=
  C7_push_data_values [96, 5, 0] [1] (by decide) (by decide)

/-! ### Entrance search lemmas (C5, C6) -/

lemma searchGuard_zero_ratio (num den : Nat) (st : SearchState)
    (h : st.hit_ratio = some (0, 1)) (hn : 0 < num) :
    searchGuard num den st = true := by
  simp only [searchGuard, h, Bool.and_eq_true, decide_eq_true_eq]
  omega

lemma searchStep_c5_fixed :
    searchStep 3 [] 1
      ⟨[(0 : Int)], [true, false, false], 0, some (0, 1)⟩
      = some ⟨[(0 : Int)], [true, false, false], 0, some (0, 1)⟩ := by
  decide

lemma searchStep_c5_first :
    searchStep 3 [] 1
      ⟨[(0 : Int)], [false, false, false], 0, some (0, 1)⟩
      = some ⟨[(0 : Int)], [true, false, false], 0, some (0, 1)⟩ := by
  decide

lemma searchLoop_c5_stuck (num den : Nat) (hn : 0 < num) :
    ∀ fuel, searchLoop 3 [] 1 num den fuel
      ⟨[(0 : Int)], [true, false, false], 0, some (0, 1)⟩ = none := by
  intro fuel
  induction fuel with
  | zero => rfl
  | succ fuel ih =>
    rw [searchLoop, searchGuard_zero_ratio num den _ rfl hn]
    simp only [if_true, searchStep_c5_fixed, Option.some_bind]
    exact ih

/-- C5: `search_contract_starts` is claimed to terminate for every
bytecode and threshold in (0, 1]; on the bytecode `0x5b 0x60 0x00`
(`JUMPDEST`, `PUSH1` with operand `0x00` ending the stream) the
push-value set is empty, the loop condition
`len(jumpdest_indices) >= 0` is always true and there is no zero-score
guard, so the loop makes no progress and never exits: the fueled
embedding returns `none` for *every* fuel. -/
theorem C5_search_never_terminates (stop_threshold_num stop_threshold_den : Nat)
    (hn : 0 < stop_threshold_num)
    (hd : stop_threshold_num ≤ stop_threshold_den) :
    ∀ fuel, search_contract_starts [91, 96, 0]
      (tag_push_data [91, 96, 0])
      (maskAnd (tag_mnemonic [91, 96, 0] JUMPDEST_BYTE)
        (maskNot (tag_push_data [91, 96, 0])))
      stop_threshold_num stop_threshold_den fuel = none := by
  intro fuel
  show searchLoop 3 [] 1 stop_threshold_num stop_threshold_den fuel
    ⟨[(0 : Int)], [false, false, false], 0, some (0, 1)⟩ = none
  cases fuel with
  | zero => rfl
  | succ fuel =>
    rw [searchLoop, searchGuard_zero_ratio stop_threshold_num
      stop_threshold_den _ rfl hn]
    simp only [if_true, searchStep_c5_first, Option.some_bind]
    exact searchLoop_c5_stuck stop_threshold_num stop_threshold_den hn fuel

/-- Witness for C5 at the default threshold 0.98 = 49/50 and fuel 7. -/
theorem C5_search_never_terminates_witness :
    search_contract_starts [91, 96, 0]
      (tag_push_data [91, 96, 0])
      (maskAnd (tag_mnemonic [91, 96, 0] JUMPDEST_BYTE)
        (maskNot (tag_push_data [91, 96, 0]))) 49 50 7 = none :=
  C5_search_never_terminates 49 50 (by decide) (by decide) 7

/-- C6: with an all-false jumpdest mask the claim says the search returns
the all-false entrance mask; the code instead enters the loop once (the
loop condition `len([]) >= 0` holds), marks offset 0 (`argmax` of the
all-zero score vector), computes `hit_ratio = 0.0 / 0 = nan` and exits
(`nan < 0.98` is false), returning a mask with position 0 set.  Bytecode
`0x60 0x5b`: the only `JUMPDEST` byte is push data, so the jumpdest mask
is all-false, and the returned entrance mask is `[true, false]`. -/
theorem C6_search_no_jumpdests_marks_zero :
    maskAnd (tag_mnemonic [96, 91] JUMPDEST_BYTE)
      (maskNot (tag_push_data [96, 91])) = [false, false] ∧
    search_contract_starts [96, 91] (tag_push_data [96, 91])
      (maskAnd (tag_mnemonic [96, 91] JUMPDEST_BYTE)
        (maskNot (tag_push_data [96, 91]))) 49 50 50
      = some [true, false] := by
  exact ⟨by decide, by decide⟩

/-! ### Segment-constancy lemmas (C10) -/

lemma length_segmentAux : ∀ (l : List (Bool × Bool)) (c : Nat),
    (segmentAux l c).length = l.length := by
  intro l
  induction l with
  | nil => intro c; rfl
  | cons p rest ih =>
    intro c
    obtain ⟨s, e⟩ := p
    cases s <;> cases e <;> simp [segmentAux, ih]

lemma length_analyze_segments (mc : List Nat) :
    (analyze_segments mc).length = mc.length := by
  simp [analyze_segments, segment_code, segment_list, length_segmentAux,
    List.length_zip, length_jumpdest_mask_of, length_end_flag_mask_of]

lemma length_tag_valid_segments (segments : List Nat)
    (validation_mask : List Bool) (ind : Bool) :
    (tag_valid_segments segments validation_mask ind).length
      = segments.length := by
  simp [tag_valid_segments]

lemma tag_valid_segments_getD (segments : List Nat)
    (validation_mask : List Bool) (ind : Bool) (i : Nat)
    (h : i < segments.length) :
    (tag_valid_segments segments validation_mask ind).getD i false
      = !((((List.range segments.length).filter
          (fun j => validation_mask.getD j false == ind)).map
          (fun j => segments.getD j 0)).contains (segments.getD i 0)) := by
  simp only [tag_valid_segments]
  exact getD_map_lt segments _ i h false 0

lemma maskAnd3_tvs_constant (segs : List Nat) (v1 v2 v3 : List Bool)
    (i j : Nat) (hi : i < segs.length) (hj : j < segs.length)
    (hseg : segs.getD i 0 = segs.getD j 0) :
    (maskAnd (tag_valid_segments segs v1 true)
      (maskAnd (tag_valid_segments segs v2 true)
        (tag_valid_segments segs v3 true))).getD i false
    = (maskAnd (tag_valid_segments segs v1 true)
      (maskAnd (tag_valid_segments segs v2 true)
        (tag_valid_segments segs v3 true))).getD j false := by
  have l1 := length_tag_valid_segments segs v1 true
  have l2 := length_tag_valid_segments segs v2 true
  have l3 := length_tag_valid_segments segs v3 true
  have l23 : (List.zipWith and (tag_valid_segments segs v2 true)
      (tag_valid_segments segs v3 true)).length = segs.length := by
    simp only [List.length_zipWith, l2, l3]
    omega
  simp only [maskAnd]
  rw [getD_zipWith_and _ _ i (by omega) (by omega),
    getD_zipWith_and _ _ j (by omega) (by omega),
    getD_zipWith_and _ _ i (by omega) (by omega),
    getD_zipWith_and _ _ j (by omega) (by omega),
    tag_valid_segments_getD segs v1 true i hi,
    tag_valid_segments_getD segs v1 true j hj,
    tag_valid_segments_getD segs v2 true i hi,
    tag_valid_segments_getD segs v2 true j hj,
    tag_valid_segments_getD segs v3 true i hi,
    tag_valid_segments_getD segs v3 true j hj,
    hseg]

/-- C10: every validator output of `_tag_valid_segments` assigns the same
boolean to any two positions with the same segment id, and consequently
whenever `analyze` returns a verdict it classifies every byte of one
segment uniformly (the verdict is the pointwise AND of three such
validator masks over the same segment id vector). -/
theorem C10_verdict_constant_on_segments :
    (∀ (segments : List Nat) (validation_mask : List Bool)
      (invalid_indicator : Bool) (i j : Nat),
      i < segments.length → j < segments.length →
      segments.getD i 0 = segments.getD j 0 →
      (tag_valid_segments segments validation_mask invalid_indicator).getD
        i false
        = (tag_valid_segments segments validation_mask
            invalid_indicator).getD j false) ∧
    (∀ (mc : List Nat) (stop_threshold_num stop_threshold_den fuel : Nat)
      (m : List Bool) (i j : Nat),
      analyze mc stop_threshold_num stop_threshold_den fuel = some m →
      i < mc.length → j < mc.length →
      (analyze_segments mc).getD i 0 = (analyze_segments mc).getD j 0 →
      m.getD i false = m.getD j false) := by
  constructor
  · intro segments validation_mask ind i j hi hj hseg
    rw [tag_valid_segments_getD segments validation_mask ind i hi,
      tag_valid_segments_getD segments validation_mask ind j hj, hseg]
  · intro mc num den fuel m i j hsome hi hj hseg
    simp only [analyze] at hsome
    rcases Option.bind_eq_some.mp hsome with ⟨pc, hpc, hrest⟩
    rcases Option.bind_eq_some.mp hrest with ⟨em, _hem, hrest2⟩
    rcases Option.map_eq_some'.mp hrest2 with ⟨jc, hjc, hm⟩
    simp only [validate_segment_jumps] at hpc
    rcases Option.bind_eq_some.mp hpc with ⟨pj, _hpj, hpc2⟩
    by_cases hemp : pj = []
    · rw [if_pos hemp] at hpc2
      exact absurd hpc2 (by simp)
    · rw [if_neg hemp] at hpc2
      have hpc3 : pc = tag_valid_segments (analyze_segments mc)
          ((List.range mc.length).map (fun i =>
            ((pj.filter (fun pr => pr.2 > mc.length)).map
              Prod.fst).contains i)) true := by
        exact (Option.some.injEq _ _).mp hpc2 |>.symm
      simp only [validate_segment_jumpdests] at hjc
      rcases Option.map_eq_some'.mp hjc with ⟨vm, _hvm, hjc2⟩
      have hjc3 : jc = tag_valid_segments (analyze_segments mc)
          (List.zipWith xor (jumpdest_mask_of mc) vm) true := hjc2.symm
      subst hm
      rw [hpc3, hjc3]
      have hil : i < (analyze_segments mc).length := by
        rw [length_analyze_segments]; exact hi
      have hjl : j < (analyze_segments mc).length := by
        rw [length_analyze_segments]; exact hj
      exact maskAnd3_tvs_constant (analyze_segments mc) _ _ _ i j hil hjl hseg

/-- Witness for C10 on the bytecode `0x60 0x03 0x56 0x5b 0x00`
(`PUSH1 0x03`, `JUMP`, `JUMPDEST`, `STOP`): `analyze` returns the all-code
verdict and positions 0 and 1 share segment id 0 and verdict. -/
theorem C10_verdict_constant_on_segments_witness :
    analyze [96, 3, 86, 91, 0] 49 50 9
      = some [true, true, true, true, true] ∧
    ([true, true, true, true, true] : List Bool).getD 0 false
      = ([true, true, true, true, true] : List Bool).getD 1 false :=
  ⟨by decide,
    C10_verdict_constant_on_segments.2 [96, 3, 86, 91, 0] 49 50 9
      [true, true, true, true, true] 0 1 (by decide) (by decide) (by decide)
      (by decide)⟩
